import Mathlib

/-!
# Shallow embedding of the SAR text-recognition model
  (doctr/models/recognition/sar/tensorflow.py)

Tensors are embedded as nested lists of rationals; the batch dimension is
handled per sample (all batched TF ops in this file are data-parallel maps
over the batch axis, so per-sample semantics is equivalent).  Transcendental
floating-point primitives (`tf.math.exp`, `tf.math.log`, `tf.math.tanh`) are
modelled as an explicit `Primitives` record of rational functions: every
property proved below holds for all interpretations of these primitives
(plus, where needed, positivity of `exp`), which in particular covers the
real exponential/logarithm/tangent, while keeping every definition
executable.

Keras framework layers whose internals live outside this repository
(`layers.LSTMCell` / `StackedRNNCells`) are modelled as an opaque per-step
transition function carried as a field of the decoder, exactly as the source
treats them: both decode paths call the very same layer object.
-/

namespace SARTF

/-- Interpretations of the transcendental scalar primitives used by the
source (`tf.math.exp`, `tf.math.log`, `tf.math.tanh`). -/
structure Primitives where
  exp : ℚ → ℚ
  log : ℚ → ℚ
  tanh : ℚ → ℚ

/-- The identity interpretation, used to instantiate witnesses. -/
def idPrims : Primitives := { exp := id, log := id, tanh := id }

/-- A vector (last tensor axis). -/
abbrev Vec := List ℚ

/-- A matrix: list of rows. -/
abbrev Mat := List (List ℚ)

/-- Dot product (zip-wise, truncating at the shorter list like TF requires
equal shapes; shapes always agree in real runs). -/
def dot (a b : Vec) : ℚ := ((a.zip b).map fun p => p.1 * p.2).sum

/-- Elementwise vector addition. -/
def vAdd (a b : Vec) : Vec := List.zipWith (· + ·) a b

/-- Matrix-vector product: one output coordinate per stored row. -/
def matVec (W : Mat) (x : Vec) : Vec := W.map fun r => dot r x

/-- Row-vector times matrix (used for `oh_gt @ conf_matrix`). -/
def vecMat (v : Vec) (C : Mat) : Vec :=
  ((v.zip C).map fun p => p.2.map fun c => p.1 * c).foldl vAdd
    (List.replicate ((C.headD []).length) 0)

/-- The all-zero vector. -/
def zeros (n : ℕ) : Vec := List.replicate n 0

theorem zeros_length (n : ℕ) : (zeros n).length = n := by simp [zeros]

/-- `tf.one_hot idx depth`: the indicator vector of `idx` over `depth`
classes; an out-of-range index yields the all-zero vector (TF semantics). -/
def oneHot (depth idx : ℕ) : Vec :=
  (List.range depth).map fun i => if i = idx then 1 else 0

/-- A dense (fully connected) layer with bias: `W·x + b`
(weights stored with one row per output unit). -/
def denseLayer (W : Mat) (b : Vec) (x : Vec) : Vec :=
  List.zipWith (· + ·) (matVec W x) b

/-- `tf.nn.softmax` over the last axis. -/
def softmax (p : Primitives) (l : Vec) : Vec :=
  let e := l.map p.exp
  e.map fun x => x / e.sum

/-- Log-softmax, the per-token scores used by beam search. -/
def logSoftmax (p : Primitives) (l : Vec) : Vec :=
  l.map fun x => x - p.log ((l.map p.exp).sum)

/-- `tf.nn.softmax_cross_entropy_with_logits labels logits`
`= Σ_c labels_c · (logsumexp logits - logits_c)`. -/
def softmaxCrossEntropyWithLogits (p : Primitives) (labels logits : Vec) : ℚ :=
  ((labels.zip logits).map fun pr =>
    pr.1 * (p.log ((logits.map p.exp).sum) - pr.2)).sum

/-- Helper for `argmax`: carries the running first-best index. -/
def argmaxAux : List ℚ → ℕ → ℕ → ℚ → ℕ
  | [], _, best, _ => best
  | x :: xs, i, best, bv =>
      if bv < x then argmaxAux xs (i + 1) i x else argmaxAux xs (i + 1) best bv

/-- `tf.math.argmax` over the last axis (index of the first maximum). -/
def argmax : Vec → ℕ
  | [] => 0
  | x :: xs => argmaxAux xs 1 0 x

/-! ## AttentionModule (source lines 44-109) -/

/-- Weights of `AttentionModule`:
* `hiddenW` — the 1x1 `hidden_state_projector` convolution (no bias); since
  the hidden input always has a 1x1 spatial footprint this is a plain
  linear map;
* `featK`/`featB` — the 3x3 `features_projector` convolution kernel
  (indexed kernel-row, kernel-column) and its bias;
* `attnW` — the 1x1 single-output-channel `attention_projector`
  (no bias), i.e. one scalar score per location. -/
structure AttentionModule where
  hiddenW : Mat
  featK : List (List Mat)
  featB : Vec
  attnW : Vec

/-- A feature map: `H` rows of `W` columns of channel vectors. -/
abbrev Grid := List (List Vec)

/-- Zero-padded grid access (`padding="same"`), with channel count `d`. -/
def gridGetPad (g : Grid) (d : ℕ) (i j : ℤ) : Vec :=
  if 0 ≤ i ∧ 0 ≤ j then ((g.getD i.toNat []).getD j.toNat (zeros d)) else zeros d

/-- One output location of the 3x3 same-padding convolution
`features_projector`: bias plus the nine kernel taps. -/
def conv3x3At (K : List (List Mat)) (b : Vec) (g : Grid) (d : ℕ) (i j : ℕ) : Vec :=
  (((List.range 3).flatMap fun di => (List.range 3).map fun dj =>
      matVec ((K.getD di []).getD dj [])
        (gridGetPad g d ((i : ℤ) + di - 1) ((j : ℤ) + dj - 1))).foldl vAdd b)

/-- The flattened per-location attention scores of `AttentionModule.call`
(source lines 91-101): project the hidden state (1x1 conv), project the
features (3x3 conv), broadcast-add, `tanh`, project to one scalar per
location, and flatten the `(H, W)` grid to length `H·W`. -/
def AttentionModule.scores (p : Primitives) (m : AttentionModule)
    (features : Grid) (hidden : Vec) : List ℚ :=
  let d := ((features.headD []).headD []).length
  let hsProj := matVec m.hiddenW hidden
  let H := features.length
  let W := (features.headD []).length
  (List.range H).flatMap fun i => (List.range W).map fun j =>
    dot m.attnW ((vAdd hsProj (conv3x3At m.featK m.featB features d i j)).map p.tanh)

/-- The softmax attention distribution over the `H·W` locations
(source line 102). -/
def AttentionModule.attn (p : Primitives) (m : AttentionModule)
    (features : Grid) (hidden : Vec) : List ℚ :=
  softmax p (AttentionModule.scores p m features hidden)

/-- `AttentionModule.call` (source lines 81-109): attention-weight the
feature map and sum over the spatial axes, producing the glimpse vector. -/
def AttentionModule.call (p : Primitives) (m : AttentionModule)
    (features : Grid) (hidden : Vec) : Vec :=
  let d := ((features.headD []).headD []).length
  let H := features.length
  let W := (features.headD []).length
  let att := AttentionModule.attn p m features hidden
  (((List.range H).flatMap fun i => (List.range W).map fun j =>
      let w := att.getD (i * W + j) 0
      (gridGetPad features d (i : ℤ) (j : ℤ)).map fun x =>
        w * x).foldl vAdd (zeros d))

/-! ## SARDecoder (source lines 112-265)

The decoder is parametrised by the recurrent-state type `σ`; the keras
`StackedRNNCells` object (whose internals are framework code, external to
this repository) is carried as the opaque transition function
`lstm_decoder : input → state → output × state`, and its
`get_initial_state` as the field `initialState`. -/

structure SARDecoder (σ : Type) where
  vocabSize : ℕ
  maxLength : ℕ
  embedW : Mat
  lstm_decoder : Vec → σ → Vec × σ
  initialState : σ
  attention_module : AttentionModule
  outputW : Mat
  outputB : Vec

/-- `SARDecoder.embed_token` (source lines 156-157): one-hot over
`vocab_size + 1` classes, then the bias-free `embed` dense layer. -/
def SARDecoder.embed_token {σ} (dec : SARDecoder σ) (token : ℕ) : Vec :=
  matVec dec.embedW (oneHot (dec.vocabSize + 1) token)

/-- One iteration of the unrolled greedy/teacher-forced loop of
`SARDecoder.greedy_decode` (source lines 163-177): one-hot embed the
previous symbol, advance the stacked LSTM, attend on the top-layer output
(whose `expand_dims` to a 1x1 spatial footprint is the identity in the
per-sample embedding), concatenate, and project to `vocab_size + 1`
logits.  Returns the logits and the new recurrent state. -/
def SARDecoder.greedyStep {σ} (p : Primitives) (dec : SARDecoder σ)
    (features : Grid) (symbol : ℕ) (states : σ) : Vec × σ :=
  let embeded_symbol := matVec dec.embedW (oneHot (dec.vocabSize + 1) symbol)
  let r := dec.lstm_decoder embeded_symbol states
  let logits := r.1
  let states' := r.2
  let glimpse := AttentionModule.call p dec.attention_module features logits
  (denseLayer dec.outputW dec.outputB (logits ++ glimpse), states')

/-- The unrolled loop of `SARDecoder.greedy_decode` (source lines 162-184),
written as fuel recursion: at step `t` compute the logits, pick the next
input symbol (ground-truth token `gt[t]` when teacher forcing, otherwise
the argmax), and accumulate the per-step logits in order. -/
def SARDecoder.greedyLoop {σ} (p : Primitives) (dec : SARDecoder σ)
    (features : Grid) (gt : Option (List ℕ)) :
    ℕ → ℕ → ℕ → σ → List Vec
  | 0, _, _, _ => []
  | fuel + 1, t, symbol, states =>
      let step := SARDecoder.greedyStep p dec features symbol states
      let symbol' := match gt with
        | some g => g.getD t 0
        | none => argmax step.1
      step.1 :: SARDecoder.greedyLoop p dec features gt fuel (t + 1) symbol' step.2

/-- `SARDecoder.greedy_decode` (source lines 159-189): unroll
`max_length + 1` steps (one kept for EOS); the returned ids are the
per-timestep argmax of the stacked logits (the source recomputes
`ids`/`scores` on every iteration; their final values are returned). -/
def SARDecoder.greedy_decode {σ} (p : Primitives) (dec : SARDecoder σ)
    (symbol : ℕ) (states : σ) (features : Grid) (gt : Option (List ℕ)) :
    List ℕ × List Vec :=
  let scores := SARDecoder.greedyLoop p dec features gt (dec.maxLength + 1) 0 symbol states
  (scores.map argmax, scores)

/-- The beam-search cache (source line 192): decoder hidden states plus the
feature map. -/
structure BeamCache (σ : Type) where
  hidden_states : σ
  features : Grid

/-- The step function returned by `SARDecoder.get_symbols_to_logits_fn`
(source lines 211-229): embed the last id of the running sequence, advance
the stacked LSTM from the cached states, attend on the output (the two
`expand_dims` to a 1x1 footprint are the identity per sample), concatenate
and project; returns the logits and the updated cache. -/
def SARDecoder.symbols_to_logits_fn {σ} (p : Primitives) (dec : SARDecoder σ)
    (ids : List ℕ) (_i : ℕ) (cache : BeamCache σ) : Vec × BeamCache σ :=
  let embeded_symbol := SARDecoder.embed_token dec (ids.getD (ids.length - 1) 0)
  let r := dec.lstm_decoder embeded_symbol cache.hidden_states
  let output := r.1
  let cache' : BeamCache σ := { hidden_states := r.2, features := cache.features }
  let glimpse := AttentionModule.call p dec.attention_module cache'.features output
  (denseLayer dec.outputW dec.outputB (output ++ glimpse), cache')

/-! ## Beam search

`beam_decode` (source lines 191-209) delegates the search itself to
`beam_search.sequence_beam_search` from the external
`official.nlp.modeling.ops` package, which is not part of this repository;
only the parameters it receives are visible in the source:
`symbols_to_logits_fn`, `vocab_size + 1` classes, `beam_size = beam_width`,
`alpha = 0` (no length penalty), `max_decode_length = max_length + 1`,
`eos_id = vocab_size`.  The search is therefore modelled from the spec. -/

/-- One beam hypothesis: running token sequence (including the initial
start id), cumulative log-probability, finished flag, and its decoder
state. -/
structure BeamHyp (σ : Type) where
  toks : List ℕ
  score : ℚ
  finished : Bool
  state : σ

/-- Descending-score comparison on hypotheses (best first). -/
def hypGE {σ} (a b : BeamHyp σ) : Prop := b.score ≤ a.score

instance {σ} : DecidableRel (hypGE (σ := σ)) :=
  fun a b => inferInstanceAs (Decidable (b.score ≤ a.score))

instance {σ} : IsTotal (BeamHyp σ) hypGE := ⟨fun a b => le_total b.score a.score⟩

instance {σ} : IsTrans (BeamHyp σ) hypGE := ⟨fun _ _ _ h1 h2 => le_trans h2 h1⟩

/-- Modelled from the spec: expansion of one live hypothesis — score all
`vocabSizeP` next tokens through the cell's log-softmax (the cell is the
source's `symbols_to_logits_fn`), add to the cumulative log-probability,
and mark the hypothesis finished upon emitting `eosId`. -/
def expandHyp {σ} (p : Primitives) (dec : SARDecoder σ) (features : Grid)
    (vocabSizeP eosId : ℕ) (h : BeamHyp σ) : List (BeamHyp σ) :=
  let r := SARDecoder.symbols_to_logits_fn p dec h.toks 0
    { hidden_states := h.state, features := features }
  let lp := logSoftmax p r.1
  (List.range vocabSizeP).map fun v =>
    { toks := h.toks ++ [v], score := h.score + lp.getD v 0,
      finished := v = eosId, state := r.2.hidden_states }

/-- Modelled from the spec: one beam-search timestep — finished hypotheses
are retained as candidates but excluded from expansion; live ones are
expanded over the whole class set; the top `beamSize` candidates by score
are kept (stable: an earlier-generated hypothesis wins ties). -/
def beamStep {σ} (p : Primitives) (dec : SARDecoder σ) (features : Grid)
    (vocabSizeP eosId beamSize : ℕ) (hyps : List (BeamHyp σ)) : List (BeamHyp σ) :=
  let cands := hyps.flatMap fun h =>
    if h.finished then [h] else expandHyp p dec features vocabSizeP eosId h
  (List.insertionSort hypGE cands).take beamSize

/-- Modelled from the spec: the beam-search loop — run for at most
`fuel` timesteps, stopping early once every hypothesis has terminated. -/
def beamSearchLoop {σ} (p : Primitives) (dec : SARDecoder σ) (features : Grid)
    (vocabSizeP eosId beamSize : ℕ) : ℕ → List (BeamHyp σ) → List (BeamHyp σ)
  | 0, hyps => hyps
  | fuel + 1, hyps =>
      if hyps.all (·.finished) then hyps
      else beamSearchLoop p dec features vocabSizeP eosId beamSize fuel
        (beamStep p dec features vocabSizeP eosId beamSize hyps)

/-- Modelled from the spec: `beam_search.sequence_beam_search` from the
external `official.nlp.modeling.ops` package (not part of this
repository).  `beamSize` hypotheses per sample are initialised from the
single start token with zero cumulative log-probability; the search runs
for at most `maxDecodeLength` steps or until all hypotheses have
terminated; the returned token sequences (still carrying the leading start
id) and cumulative log-probabilities are ordered best-first.  No length
penalty is applied, matching `alpha = 0`. -/
def sequence_beam_search {σ} (p : Primitives) (dec : SARDecoder σ)
    (features : Grid) (initialId : ℕ) (initState : σ)
    (vocabSizeP beamSize maxDecodeLength eosId : ℕ) :
    List (List ℕ) × List ℚ :=
  let init : List (BeamHyp σ) := List.replicate beamSize
    { toks := [initialId], score := 0, finished := false, state := initState }
  let final := beamSearchLoop p dec features vocabSizeP eosId beamSize
    maxDecodeLength init
  (final.map (·.toks), final.map (·.score))

/-- `SARDecoder.beam_decode` (source lines 191-209): call the sequence
beam search with `vocab_size + 1` classes, `alpha = 0`,
`max_decode_length = max_length + 1` and `eos_id = vocab_size`, then strip
the leading start token (`sequences_ids[..., 1:]`). -/
def SARDecoder.beam_decode {σ} (p : Primitives) (dec : SARDecoder σ)
    (symbol : ℕ) (states : σ) (features : Grid) (beam_width : ℤ) :
    List (List ℕ) × List ℚ :=
  let r := sequence_beam_search p dec features symbol states
    (dec.vocabSize + 1) beam_width.toNat (dec.maxLength + 1) dec.vocabSize
  (r.1.map fun s => s.drop 1, r.2)

/-- The two possible result shapes of `SARDecoder.call`: the greedy path
returns per-sample ids and per-timestep logits; the beam path returns
per-sample ranked id sequences and cumulative log-probabilities. -/
inductive DecodeOutput : Type
  | greedy (ids : List ℕ) (scores : List Vec) : DecodeOutput
  | beam (ids : List (List ℕ)) (logProbs : List ℚ) : DecodeOutput

/-- Whether a decode result came from the greedy/teacher-forced path. -/
def DecodeOutput.isGreedy : DecodeOutput → Bool
  | .greedy _ _ => true
  | .beam _ _ => false

/-- `SARDecoder.call` (source lines 231-265): initialise the recurrent
state, run one LSTM step on the holistic vector, seed the running symbol
with the virtual start id `vocab_size + 1` (placed after EOS so its
one-hot is all zeros), then take the greedy/teacher-forced path when in
training mode or when no beam width was given, and the beam-search path
otherwise. -/
def SARDecoder.call {σ} (p : Primitives) (dec : SARDecoder σ)
    (features : Grid) (holistic : Vec) (gt : Option (List ℕ))
    (beam_width : Option ℤ) (training : Bool) : DecodeOutput :=
  let r := dec.lstm_decoder holistic dec.initialState
  let states := r.2
  let symbol := dec.vocabSize + 1
  if training || beam_width.isNone then
    let g := SARDecoder.greedy_decode p dec symbol states features gt
    DecodeOutput.greedy g.1 g.2
  else
    let b := SARDecoder.beam_decode p dec symbol states features (beam_width.getD 0)
    DecodeOutput.beam b.1 b.2

/-! ## SAR model construction (source lines 325-363) -/

/-- The configuration recorded by `SAR.__init__`: the stored attributes and
the parameters handed to the decoder sub-module.  `maxLength` is the model
attribute `self.max_length = max_length + 1` (one timestep added for EOS
after the longest word); the decoder receives the unchanged constructor
`max_length`. -/
structure SARConfig where
  vocab : List Char
  maxLength : ℕ
  rnnUnits : ℕ
  attentionUnits : ℕ
  numDecoders : ℕ
  decoderVocabSize : ℕ
  decoderMaxLength : ℕ
deriving DecidableEq

/-- `SAR.__init__` (source lines 325-363).  The body performs no
validation of any argument and contains no raise statement — in
particular the vocabulary string is stored as-is and its length becomes
the decoder's `vocab_size`.  The `Except` result type records that no
error can be produced: the constructor always returns `Except.ok`. -/
def SAR.init (vocab : List Char) (rnnUnits attentionUnits maxLength numDecoders : ℕ) :
    Except String SARConfig :=
  Except.ok
    { vocab := vocab
      maxLength := maxLength + 1
      rnnUnits := rnnUnits
      attentionUnits := attentionUnits
      numDecoders := numDecoders
      decoderVocabSize := vocab.length
      decoderMaxLength := maxLength }

/-! ## SAR.compute_loss (source lines 365-418) -/

/-- The per-row mask of `tf.sequence_mask(seq_len, input_len)` applied by
`tf.where(mask_2d, cce, mask_values)` (source lines 411-414): entry `t`
keeps `cce[t]` for `t < sl` and is zero otherwise (`sl` is already the
incremented `seq_len + 1`). -/
def maskedRow (row : List ℚ) (sl inputLen : ℕ) : List ℚ :=
  (List.range inputLen).map fun t => if t < sl then row.getD t 0 else 0

/-- The shared tail of `SAR.compute_loss` (source lines 411-418): mask the
per-timestep losses, sum each row, divide by the (already incremented)
per-sample sequence length, and `expand_dims` to shape `[N, 1]`. -/
def SAR.computeLossMask (cce : List (List ℚ)) (seqLen1 : List ℕ) (inputLen : ℕ) :
    List (List ℚ) :=
  (cce.zip seqLen1).map fun pr =>
    [(maskedRow pr.1 pr.2 inputLen).sum / (pr.2 : ℚ)]

/-- The per-timestep cross-entropy term of the `from_logits = True` branch
of `SAR.compute_loss` (source lines 391-398): one-hot the ground-truth id
over `model_output.shape[-1]` classes, optionally multiply by the
label-smoothing `conf_matrix`, and take softmax cross-entropy against the
raw logits. -/
def ceTerm (p : Primitives) (depth : ℕ) (confMatrix : Option Mat)
    (g : ℕ) (z : Vec) : ℚ :=
  let oh := oneHot depth g
  let oh' := match confMatrix with
    | none => oh
    | some C => vecMat oh C
  softmaxCrossEntropyWithLogits p oh' z

/-- `SAR.compute_loss` (source lines 365-418), `from_logits = True` branch
(the branch exercised by training and by greedy decoding; the
`from_logits = False` branch, source lines 400-409, computes its `cce`
from beam log-probabilities instead and then runs through the identical
masking code `SAR.computeLossMask`).
`input_len = tf.shape(model_output)[-2]`, `seq_len = seq_len + 1`, the
per-timestep cross-entropy matrix has shape `(N, input_len)`. -/
def SAR.compute_loss (p : Primitives) (modelOutput : List (List Vec))
    (gt : List (List ℕ)) (seqLen : List ℕ) (confMatrix : Option Mat) :
    List (List ℚ) :=
  let inputLen := (modelOutput.headD []).length
  let seqLen1 := seqLen.map (· + 1)
  let depth := ((modelOutput.headD []).headD []).length
  let cce := (List.range modelOutput.length).map fun n =>
    (List.range inputLen).map fun t =>
      ceTerm p depth confMatrix ((gt.getD n []).getD t 0)
        ((modelOutput.getD n []).getD t [])
  SAR.computeLossMask cce seqLen1 inputLen

/-! ## SAR_without_feature_extractor.call (source lines 827-885)

Only name binding and the output-key structure of the method body are
claim-relevant, so the body is modelled at that level: the local
environment is the list of names the body binds, in source order, and a
reference to a name that is not bound raises `NameError` exactly as the
Python interpreter would. -/

/-- Python name lookup in a local environment. -/
def pyLookup (env : List String) (x : String) : Except String Unit :=
  if x ∈ env then Except.ok ()
  else Except.error ("NameError: " ++ x)

/-- The local names bound by the body of
`SAR_without_feature_extractor.call` before the output mapping is built
(source lines 842-862): `pooled_features`, `label_smoothing_weights`,
`encoded`, then `gt`/`seq_len` when a target is given, and finally the
decoder result unpacked into `decoded_ids` and `decoded_scores`
(line 856).  The name `decoded_features` is never bound. -/
def sarWfeLocals (targetGiven : Bool) : List String :=
  ["features", "pooled_features", "label_smoothing_weights", "encoded"]
    ++ (if targetGiven then ["gt", "seq_len"] else [])
    ++ ["decoded_ids", "decoded_scores"]

/-- `SAR_without_feature_extractor.call` (source lines 827-885) at the
name-resolution level: build the output keys `out_map` (when
`return_model_output`), `preds` (when no target or `return_preds`), and —
when a target is given — evaluate `self.compute_loss(decoded_features, …)`
(line 878), which first resolves the name `decoded_features` in the local
environment. -/
def sarWfeCall (targetGiven returnModelOutput returnPreds : Bool) :
    Except String (List String) :=
  let env := sarWfeLocals targetGiven
  let keys1 : List String := if returnModelOutput then ["out_map"] else []
  let keys2 := if targetGiven = false || returnPreds then keys1 ++ ["preds"] else keys1
  if targetGiven then
    match pyLookup env "decoded_features" with
    | Except.ok _ => Except.ok (keys2 ++ ["loss"])
    | Except.error e => Except.error e
  else
    Except.ok keys2

/-! ## SARPostProcessor (source lines 888-927) -/

/-- The EOS marker string appended to the decode table. -/
def eosMarker : List Char := ['<', 'e', 'o', 's', '>']

/-- Modelled from the spec: `RecognitionPostProcessor` (the base class in
`doctr/models/recognition/core.py`, not under `src/`) builds the decode
table `self._embedding` as the vocabulary characters followed by the EOS
marker string — ids `0..V-1` map to characters, id `V` to the marker. -/
def mkEmbedding (vocab : List Char) : List (List Char) :=
  vocab.map (fun c => [c]) ++ [eosMarker]

/-- `tf.nn.embedding_lookup(embedding, ids)` for one id (ids beyond the
table, which real runs never produce, default to the empty string). -/
def embeddingLookup (vocab : List Char) (id : ℕ) : List Char :=
  (mkEmbedding vocab).getD id []

/-- `tf.strings.reduce_join` of the looked-up tokens of one sequence
(source lines 914-918). -/
def reduceJoin (vocab : List Char) (ids : List ℕ) : List Char :=
  (ids.map (embeddingLookup vocab)).flatten

/-- The characters of `s` strictly before the first occurrence of the
(nonempty) separator `m`; this is exactly entry `[..., 0]` of
`tf.strings.split(s, m)` (source lines 919-922). -/
def splitHead (m : List Char) : List Char → List Char
  | [] => []
  | c :: cs => if m.isPrefixOf (c :: cs) then [] else c :: splitHead m cs

/-- The decoded string of one id sequence produced by
`SARPostProcessor.__call__` (source lines 913-922): map every id through
the decode table, join, and keep only the part before the first
`<eos>` marker. -/
def SARPostProcessor.decodeOne (vocab : List Char) (ids : List ℕ) : List Char :=
  splitHead eosMarker (reduceJoin vocab ids)

/-- The string half of `SARPostProcessor.__call__` over a batch. -/
def SARPostProcessor.decodeStrings (vocab : List Char) (idsBatch : List (List ℕ)) :
    List (List Char) :=
  idsBatch.map (SARPostProcessor.decodeOne vocab)

/-! ## Concrete fixtures used by witnesses and counterexamples -/

/-- Primitives interpretation with a strictly positive `exp`. -/
def onePrims : Primitives := { exp := fun _ => 1, log := id, tanh := id }

/-- A tiny concrete attention module (1 attention unit, 1 channel,
all-zero weights). -/
def attn0 : AttentionModule :=
  { hiddenW := [zeros 1]
    featK := List.replicate 3 (List.replicate 3 [zeros 1])
    featB := zeros 1
    attnW := zeros 1 }

/-- A 1x1 all-zero feature map with one channel. -/
def features0 : Grid := List.replicate 1 (List.replicate 1 (zeros 1))

/-- A tiny concrete decoder over the trivial state type: vocabulary size 1
(so EOS id is 1 and the virtual start id is 2), `max_length = 1`, identity
LSTM transition, all-zero weights. -/
def dec0 : SARDecoder Unit :=
  { vocabSize := 1
    maxLength := 1
    embedW := [zeros 2]
    lstm_decoder := fun v s => (v, s)
    initialState := ()
    attention_module := attn0
    outputW := [zeros 2, zeros 2]
    outputB := zeros 2 }

/-! ## Generic list lemmas -/

theorem dot_zeros (r : Vec) (n : ℕ) : dot r (zeros n) = 0 := by
  induction r generalizing n with
  | nil => simp [dot]
  | cons x xs ih =>
      cases n with
      | zero => simp [dot, zeros]
      | succ m =>
          have := ih m
          simp only [dot, zeros, List.replicate_succ, List.zip_cons_cons,
            List.map_cons, List.sum_cons, mul_zero, zero_add] at this ⊢
          exact this

theorem matVec_zeros (W : Mat) (n : ℕ) : matVec W (zeros n) = zeros W.length := by
  induction W with
  | nil => rfl
  | cons r rs ih =>
      show dot r (zeros n) :: matVec rs (zeros n) = zeros (rs.length + 1)
      rw [dot_zeros r n, ih]
      rfl

theorem vAdd_zeros_right (v : Vec) : vAdd v (List.replicate v.length 0) = v := by
  induction v with
  | nil => rfl
  | cons x xs ih => simp [vAdd, List.replicate_succ] at ih ⊢; exact ih

theorem foldl_vAdd_zeros (ts : List Vec) (acc : Vec)
    (h : ∀ t ∈ ts, t = List.replicate acc.length 0) :
    ts.foldl vAdd acc = acc := by
  induction ts with
  | nil => rfl
  | cons t ts ih =>
      have ht : t = List.replicate acc.length 0 := h t (by simp)
      have hstep : vAdd acc t = acc := by rw [ht]; exact vAdd_zeros_right acc
      simp only [List.foldl_cons, hstep]
      exact ih fun t' ht' => h t' (by simp [ht'])

theorem argmaxAux_lt (xs : List ℚ) (i best : ℕ) (bv : ℚ) (h : best < i) :
    argmaxAux xs i best bv < i + xs.length := by
  induction xs generalizing i best bv with
  | nil => simpa [argmaxAux] using h
  | cons x xs ih =>
      simp only [argmaxAux]
      by_cases hx : bv < x
      · simp only [hx, if_true]
        have := ih (i + 1) i x (Nat.lt_succ_self i)
        simp only [List.length_cons]
        omega
      · simp only [hx, if_false]
        have := ih (i + 1) best bv (Nat.lt_succ_of_lt h)
        simp only [List.length_cons]
        omega

theorem argmax_lt (l : Vec) (h : l ≠ []) : argmax l < l.length := by
  cases l with
  | nil => exact absurd rfl h
  | cons x xs =>
      have := argmaxAux_lt xs 1 0 x Nat.one_pos
      simp only [argmax, List.length_cons]
      omega

theorem getD_of_getLast? {α} (l : List α) (d x : α) (h : l.getLast? = some x) :
    l.getD (l.length - 1) d = x := by
  induction l with
  | nil => simp at h
  | cons c cs ih =>
      cases cs with
      | nil => simp_all [List.getLast?]
      | cons c2 cs2 =>
          have h' : (c2 :: cs2).getLast? = some x := by
            simpa [List.getLast?_cons_cons] using h
          have := ih h'
          simpa [List.length_cons, List.getD_cons_succ] using this

theorem dot_zeros_left (n : ℕ) (v : Vec) : dot (zeros n) v = 0 := by
  induction n generalizing v with
  | zero => simp [dot, zeros]
  | succ m ih =>
      cases v with
      | nil => simp [dot]
      | cons x xs =>
          have := ih xs
          simp only [dot, zeros, List.replicate_succ, List.zip_cons_cons,
            List.map_cons, List.sum_cons, zero_mul, zero_add] at this ⊢
          exact this

theorem getD_replicate_cases {α} (n m : ℕ) (a d : α) :
    (List.replicate n a).getD m d = if m < n then a else d := by
  by_cases h : m < n
  · rw [if_pos h, List.getD_eq_getElem _ _ (by simpa using h), List.getElem_replicate]
  · rw [if_neg h]
    exact List.getD_eq_default _ _ (by simpa using Nat.le_of_not_lt h)

theorem headD_replicate {α} (n : ℕ) (a d : α) (h : 0 < n) :
    (List.replicate n a).headD d = a := by
  cases n with
  | zero => omega
  | succ m => rfl

theorem argmaxAux_zeros (m : ℕ) : ∀ i best, argmaxAux (List.replicate m 0) i best 0 = best := by
  induction m with
  | zero => intro i best; rfl
  | succ k ih =>
      intro i best
      simp only [List.replicate_succ, argmaxAux, lt_self_iff_false, if_false]
      exact ih (i + 1) best

theorem argmax_zeros (n : ℕ) : argmax (zeros n) = 0 := by
  cases n with
  | zero => rfl
  | succ m =>
      show argmax (0 :: List.replicate m 0) = 0
      simp only [argmax]
      exact argmaxAux_zeros m 1 0

theorem flatMap_congr_mem {α β} (l : List α) (f g : α → List β)
    (h : ∀ a ∈ l, f a = g a) : l.flatMap f = l.flatMap g := by
  induction l with
  | nil => rfl
  | cons a as ih =>
      simp only [List.flatMap_cons, h a (by simp)]
      rw [ih fun a' ha' => h a' (by simp [ha'])]

theorem flatMap_const_replicate {α β} (l : List α) (n : ℕ) (b : β) :
    l.flatMap (fun _ => List.replicate n b) = List.replicate (l.length * n) b := by
  induction l with
  | nil => simp
  | cons a as ih =>
      simp only [List.flatMap_cons, ih, List.length_cons]
      rw [Nat.succ_mul, Nat.add_comm, List.replicate_add]

theorem softmax_replicate (p : Primitives) (n : ℕ) (c : ℚ) (hn : 0 < n)
    (hexp : ∀ x, 0 < p.exp x) :
    softmax p (List.replicate n c) = List.replicate n (1 / (n : ℚ)) := by
  unfold softmax
  simp only [List.map_replicate, List.sum_replicate]
  congr 1
  have h1 : p.exp c ≠ 0 := ne_of_gt (hexp c)
  have h2 : (n : ℚ) ≠ 0 := Nat.cast_ne_zero.mpr (Nat.pos_iff_ne_zero.mp hn)
  rw [nsmul_eq_mul]
  field_simp
  ring

/-! ## Attention on an all-zero feature map -/

theorem gridGetPad_zeroGrid (H W D : ℕ) (i j : ℤ) :
    gridGetPad (List.replicate H (List.replicate W (zeros D))) D i j = zeros D := by
  unfold gridGetPad
  split
  · rw [getD_replicate_cases]
    by_cases h : i.toNat < H
    · rw [if_pos h, getD_replicate_cases]
      by_cases h2 : j.toNat < W
      · rw [if_pos h2]
      · rw [if_neg h2]
    · rw [if_neg h]
      rfl
  · rfl

theorem conv3x3At_zeroGrid (K : List (List Mat)) (b : Vec) (H W D : ℕ) (i j : ℕ)
    (hK : ∀ di, di < 3 → ∀ dj, dj < 3 →
      ((K.getD di []).getD dj []).length = b.length) :
    conv3x3At K b (List.replicate H (List.replicate W (zeros D))) D i j = b := by
  unfold conv3x3At
  apply foldl_vAdd_zeros
  intro t ht
  simp only [List.mem_flatMap, List.mem_map, List.mem_range] at ht
  obtain ⟨di, hdi, dj, hdj, rfl⟩ := ht
  rw [gridGetPad_zeroGrid, matVec_zeros, hK di hdi dj hdj]
  rfl

theorem scores_zeroGrid (p : Primitives) (m : AttentionModule) (H W D : ℕ)
    (hidden : Vec) (hH : 0 < H) (hW : 0 < W)
    (hK : ∀ di, di < 3 → ∀ dj, dj < 3 →
      ((m.featK.getD di []).getD dj []).length = m.featB.length) :
    AttentionModule.scores p m (List.replicate H (List.replicate W (zeros D))) hidden
      = List.replicate (H * W)
          (dot m.attnW ((vAdd (matVec m.hiddenW hidden) m.featB).map p.tanh)) := by
  unfold AttentionModule.scores
  rw [headD_replicate _ _ _ hH, headD_replicate _ _ _ hW, zeros_length,
    List.length_replicate, List.length_replicate]
  have houter : ∀ i ∈ List.range H,
      (List.range W).map (fun j =>
        dot m.attnW ((vAdd (matVec m.hiddenW hidden)
          (conv3x3At m.featK m.featB
            (List.replicate H (List.replicate W (zeros D))) D i j)).map p.tanh))
        = List.replicate W
            (dot m.attnW ((vAdd (matVec m.hiddenW hidden) m.featB).map p.tanh)) := by
    intro i _
    have hone : ∀ j ∈ List.range W,
        dot m.attnW ((vAdd (matVec m.hiddenW hidden)
          (conv3x3At m.featK m.featB
            (List.replicate H (List.replicate W (zeros D))) D i j)).map p.tanh)
          = dot m.attnW ((vAdd (matVec m.hiddenW hidden) m.featB).map p.tanh) := by
      intro j _
      rw [conv3x3At_zeroGrid m.featK m.featB H W D i j hK]
    rw [List.map_congr_left hone, List.map_const', List.length_range]
  rw [flatMap_congr_mem _ _ _ houter, flatMap_const_replicate, List.length_range]

theorem attn_zeroGrid (p : Primitives) (m : AttentionModule) (H W D : ℕ)
    (hidden : Vec) (hH : 0 < H) (hW : 0 < W) (hexp : ∀ x, 0 < p.exp x)
    (hK : ∀ di, di < 3 → ∀ dj, dj < 3 →
      ((m.featK.getD di []).getD dj []).length = m.featB.length) :
    AttentionModule.attn p m (List.replicate H (List.replicate W (zeros D))) hidden
      = List.replicate (H * W) (1 / ((H * W : ℕ) : ℚ)) := by
  unfold AttentionModule.attn
  rw [scores_zeroGrid p m H W D hidden hH hW hK]
  exact softmax_replicate p (H * W) _ (Nat.mul_pos hH hW) hexp

theorem call_zeroGrid (p : Primitives) (m : AttentionModule) (H W D : ℕ)
    (hidden : Vec) (hH : 0 < H) (hW : 0 < W) :
    AttentionModule.call p m (List.replicate H (List.replicate W (zeros D))) hidden
      = zeros D := by
  unfold AttentionModule.call
  rw [headD_replicate _ _ _ hH, headD_replicate _ _ _ hW, zeros_length,
    List.length_replicate, List.length_replicate]
  apply foldl_vAdd_zeros
  intro t ht
  simp only [List.mem_flatMap, List.mem_map, List.mem_range] at ht
  obtain ⟨i, hi, j, hj, rfl⟩ := ht
  rw [gridGetPad_zeroGrid]
  simp [zeros, List.map_replicate]

/-! ## Evaluation of the tiny all-zero decoder -/

theorem greedyLoop_succ {σ} (p : Primitives) (dec : SARDecoder σ) (features : Grid)
    (gt : Option (List ℕ)) (fuel t sym : ℕ) (st : σ) :
    SARDecoder.greedyLoop p dec features gt (fuel + 1) t sym st
      = (SARDecoder.greedyStep p dec features sym st).1
          :: SARDecoder.greedyLoop p dec features gt fuel (t + 1)
            (match gt with
              | some g => g.getD t 0
              | none => argmax (SARDecoder.greedyStep p dec features sym st).1)
            (SARDecoder.greedyStep p dec features sym st).2 := rfl

theorem dec0_greedyStep (sym : ℕ) :
    SARDecoder.greedyStep idPrims dec0 features0 sym () = (zeros 2, ()) := by
  have hemb : matVec dec0.embedW (oneHot (dec0.vocabSize + 1) sym) = [0] := by
    show matVec [zeros 2] (oneHot 2 sym) = [0]
    simp [matVec, dot_zeros_left]
  show (denseLayer dec0.outputW dec0.outputB
      ((dec0.lstm_decoder (matVec dec0.embedW (oneHot (dec0.vocabSize + 1) sym)) ()).1
        ++ AttentionModule.call idPrims dec0.attention_module features0
          (dec0.lstm_decoder (matVec dec0.embedW (oneHot (dec0.vocabSize + 1) sym)) ()).1),
    (dec0.lstm_decoder (matVec dec0.embedW (oneHot (dec0.vocabSize + 1) sym)) ()).2)
    = (zeros 2, ())
  rw [hemb]
  show (denseLayer dec0.outputW dec0.outputB
      ([0] ++ AttentionModule.call idPrims attn0 features0 [0]), ()) = (zeros 2, ())
  rw [show features0 = List.replicate 1 (List.replicate 1 (zeros 1)) from rfl,
    call_zeroGrid idPrims attn0 1 1 1 [0] one_pos one_pos]
  show (denseLayer [zeros 2, zeros 2] (zeros 2) [0, 0], ()) = (zeros 2, ())
  have hd : denseLayer [zeros 2, zeros 2] (zeros 2) [0, 0] = zeros 2 := by
    simp only [denseLayer, matVec, List.map_cons, List.map_nil, dot_zeros_left]
    show List.zipWith (· + ·) [0, 0] [0, 0] = [0, 0]
    simp
  rw [hd]

theorem dec0_greedy_ids :
    (SARDecoder.greedy_decode idPrims dec0 2 () features0 none).1 = [0, 0] := by
  have hloop : SARDecoder.greedyLoop idPrims dec0 features0 none 2 0 2 ()
      = [zeros 2, zeros 2] := by
    rw [show (2 : ℕ) = 1 + 1 from rfl, greedyLoop_succ, dec0_greedyStep]
    simp only [argmax_zeros]
    rw [greedyLoop_succ]
    rw [dec0_greedyStep]
    rfl
  show (SARDecoder.greedyLoop idPrims dec0 features0 none (dec0.maxLength + 1) 0 2 ()).map
      argmax = [0, 0]
  rw [show dec0.maxLength + 1 = 2 from rfl, hloop]
  simp [argmax_zeros]

/-! ## Claim C1 — decode-path selection -/

/-- Claim C1, counterexample.  With `training = False` and
`beam_width = 0` (a non-None value that is ≤ 0), `SARDecoder.call` takes
the beam-search path, not the greedy path the claim predicts: the guard on
source line 250 is `kwargs.get("training") or beam_width is None` and
never inspects the sign of `beam_width`. -/
theorem C1_counterexample :
    (SARDecoder.call idPrims dec0 features0 [1] none (some 0) false).isGreedy
      = false := by
  rfl

/-- Claim C1, amended: the greedy/teacher-forced path is selected exactly
when the model is in training mode or `beam_width` is `None`; every
non-None `beam_width` — including zero or negative values — takes the
beam-search path when not training (source line 250). -/
theorem C1_amended {σ} (p : Primitives) (dec : SARDecoder σ) (features : Grid)
    (holistic : Vec) (gt : Option (List ℕ)) (beam_width : Option ℤ)
    (training : Bool) :
    (SARDecoder.call p dec features holistic gt beam_width training).isGreedy = true
      ↔ (training = true ∨ beam_width = none) := by
  unfold SARDecoder.call
  by_cases h : (training || beam_width.isNone) = true
  · simp only [h, if_true, DecodeOutput.isGreedy]
    simpa [Option.isNone_iff_eq_none] using h
  · simp only [h, if_false, DecodeOutput.isGreedy]
    simpa [Option.isNone_iff_eq_none] using h

/-! ## Claim C9 — vocabulary validation at construction -/

/-- Claim C9, counterexample.  Constructing the model with an empty
vocabulary, or with a vocabulary containing duplicate characters, succeeds:
`SAR.__init__` (source lines 325-363) performs no vocabulary validation
and no `ConfigurationError` (or any other exception) exists anywhere in
the module. -/
theorem C9_counterexample :
    SAR.init [] 512 512 30 2
        = Except.ok
          { vocab := [], maxLength := 31, rnnUnits := 512, attentionUnits := 512,
            numDecoders := 2, decoderVocabSize := 0, decoderMaxLength := 30 }
      ∧ SAR.init ['a', 'a'] 512 512 30 2
        = Except.ok
          { vocab := ['a', 'a'], maxLength := 31, rnnUnits := 512,
            attentionUnits := 512, numDecoders := 2, decoderVocabSize := 2,
            decoderMaxLength := 30 } :=
  ⟨rfl, rfl⟩

/-- Claim C9, amended: construction never rejects the vocabulary — for
every vocabulary string (empty and duplicated characters included) it
succeeds, storing the vocabulary as-is, using its length as the decoder's
class count, and recording `max_length + 1` as the model's sequence
bound. -/
theorem C9_amended (vocab : List Char) (r a m n : ℕ) :
    ∃ cfg, SAR.init vocab r a m n = Except.ok cfg
      ∧ cfg.vocab = vocab
      ∧ cfg.decoderVocabSize = vocab.length
      ∧ cfg.maxLength = m + 1 :=
  ⟨_, rfl, rfl, rfl, rfl⟩

/-! ## Claim C5 — unbound name in SAR_without_feature_extractor.call -/

/-- Claim C5: whenever `SAR_without_feature_extractor.call` is invoked
with a non-None target, its loss branch (source line 878) references the
local name `decoded_features`, which is never bound in that function (the
decoder result is unpacked into `decoded_ids` and `decoded_scores` on
source line 856), so the call raises `NameError`; consequently this class
never returns an output mapping containing a `loss` entry. -/
theorem C5_theorem :
    (∀ rmo rp, sarWfeCall true rmo rp
        = Except.error "NameError: decoded_features")
      ∧ (∀ tg rmo rp ks, sarWfeCall tg rmo rp = Except.ok ks → "loss" ∉ ks) := by
  have herr : ∀ rmo rp, sarWfeCall true rmo rp
      = Except.error "NameError: decoded_features" := by
    intro rmo rp
    cases rmo <;> cases rp <;> rfl
  refine ⟨herr, ?_⟩
  intro tg rmo rp ks h
  cases tg with
  | false =>
      cases rmo <;> cases rp
      · rw [show sarWfeCall false false false = Except.ok ["preds"] from rfl] at h
        cases h; decide
      · rw [show sarWfeCall false false true = Except.ok ["preds"] from rfl] at h
        cases h; decide
      · rw [show sarWfeCall false true false
            = Except.ok ["out_map", "preds"] from rfl] at h
        cases h; decide
      · rw [show sarWfeCall false true true
            = Except.ok ["out_map", "preds"] from rfl] at h
        cases h; decide
  | true =>
      rw [herr] at h
      exact Except.noConfusion h

/-- Claim C5, witness: a concrete successful call (no target) whose output
keys never include `loss`. -/
theorem C5_witness :
    sarWfeCall false true true = Except.ok ["out_map", "preds"]
      ∧ "loss" ∉ (["out_map", "preds"] : List String) :=
  ⟨rfl, C5_theorem.2 false true true _ rfl⟩

/-! ## Claim C3 — greedy step vs beam step equivalence -/

/-- Claim C3: for every previous-token id, hidden state and feature map,
one decoder step of the unrolled greedy loop (one-hot embed, stacked LSTM
advance, attention on the top-layer output, concatenation, final dense
projection to `vocab_size + 1` logits; source lines 163-177) produces
exactly the same logits and the same new hidden state as one step of the
beam-search `symbols_to_logits_fn` (source lines 212-227) whose running
sequence ends in that token. -/
theorem C3_theorem {σ} (p : Primitives) (dec : SARDecoder σ) (features : Grid)
    (st : σ) (ids : List ℕ) (sym : ℕ) (i : ℕ) (h : ids.getLast? = some sym) :
    (SARDecoder.greedyStep p dec features sym st).1
        = (SARDecoder.symbols_to_logits_fn p dec ids i
            { hidden_states := st, features := features }).1
      ∧ (SARDecoder.greedyStep p dec features sym st).2
        = (SARDecoder.symbols_to_logits_fn p dec ids i
            { hidden_states := st, features := features }).2.hidden_states := by
  have hlast : ids.getD (ids.length - 1) 0 = sym := getD_of_getLast? ids 0 sym h
  constructor <;>
    · simp only [SARDecoder.greedyStep, SARDecoder.symbols_to_logits_fn,
        SARDecoder.embed_token]
      rw [show ids.getD (ids.length - 1) 0 = sym from hlast]

/-- Claim C3, witness: the step equivalence evaluated at the concrete tiny
decoder, with the virtual start id 2 as previous token. -/
theorem C3_witness :
    (SARDecoder.greedyStep idPrims dec0 features0 2 ()).1
        = (SARDecoder.symbols_to_logits_fn idPrims dec0 [2] 0
            { hidden_states := (), features := features0 }).1
      ∧ (SARDecoder.greedyStep idPrims dec0 features0 2 ()).2
        = (SARDecoder.symbols_to_logits_fn idPrims dec0 [2] 0
            { hidden_states := (), features := features0 }).2.hidden_states :=
  C3_theorem idPrims dec0 features0 () [2] 2 0 rfl

/-! ## Greedy-loop structure lemmas -/

theorem greedyLoop_length {σ} (p : Primitives) (dec : SARDecoder σ) (features : Grid)
    (gt : Option (List ℕ)) :
    ∀ fuel t sym st,
      (SARDecoder.greedyLoop p dec features gt fuel t sym st).length = fuel := by
  intro fuel
  induction fuel with
  | zero => intro t sym st; rfl
  | succ f ih =>
      intro t sym st
      simp only [SARDecoder.greedyLoop, List.length_cons, ih]

theorem greedyLoop_mem {σ} (p : Primitives) (dec : SARDecoder σ) (features : Grid)
    (gt : Option (List ℕ)) :
    ∀ fuel t sym st, ∀ v ∈ SARDecoder.greedyLoop p dec features gt fuel t sym st,
      ∃ s' st', v = (SARDecoder.greedyStep p dec features s' st').1 := by
  intro fuel
  induction fuel with
  | zero => intro t sym st v hv; simp [SARDecoder.greedyLoop] at hv
  | succ f ih =>
      intro t sym st v hv
      simp only [SARDecoder.greedyLoop, List.mem_cons] at hv
      rcases hv with hv | hv
      · exact ⟨sym, st, hv⟩
      · exact ih _ _ _ v hv

theorem denseLayer_length (W : Mat) (b : Vec) (x : Vec) :
    (denseLayer W b x).length = min W.length b.length := by
  simp [denseLayer, matVec]

theorem oneHot_out_of_range (d idx : ℕ) (h : d ≤ idx) : oneHot d idx = zeros d := by
  apply List.ext_getElem
  · simp [oneHot, zeros]
  · intro n h1 h2
    simp only [oneHot, zeros] at h1 h2 ⊢
    simp only [List.getElem_map, List.getElem_range, List.getElem_replicate]
    have hn : n < d := by simpa using h1
    have : n ≠ idx := Nat.ne_of_lt (lt_of_lt_of_le hn h)
    simp [this]

/-! ## Claim C8 — virtual start token -/

/-- Claim C8: the virtual start token id `vocab_size + 1` (filled in as the
very first previous-token input on source line 248) one-hot encodes over
depth `vocab_size + 1` to the all-zero vector, so the first embedded
decoder input (the bias-free `embed` layer applied to it) is the zero
vector; and no id the greedy decode predicts ever equals `vocab_size + 1`
(predictions are argmaxes over `vocab_size + 1` logits, hence all ids are
at most `vocab_size`). -/
theorem C8_theorem {σ} (p : Primitives) (dec : SARDecoder σ) (features : Grid)
    (st : σ) (gt : Option (List ℕ)) (sym : ℕ)
    (hW : dec.outputW.length = dec.vocabSize + 1)
    (hB : dec.outputB.length = dec.vocabSize + 1) :
    oneHot (dec.vocabSize + 1) (dec.vocabSize + 1) = zeros (dec.vocabSize + 1)
      ∧ SARDecoder.embed_token dec (dec.vocabSize + 1) = zeros dec.embedW.length
      ∧ ∀ id ∈ (SARDecoder.greedy_decode p dec sym st features gt).1,
          id < dec.vocabSize + 1 := by
  have h1 : oneHot (dec.vocabSize + 1) (dec.vocabSize + 1)
      = zeros (dec.vocabSize + 1) := oneHot_out_of_range _ _ le_rfl
  refine ⟨h1, ?_, ?_⟩
  · unfold SARDecoder.embed_token
    rw [h1]
    exact matVec_zeros dec.embedW (dec.vocabSize + 1)
  · intro id hid
    simp only [SARDecoder.greedy_decode, List.mem_map] at hid
    obtain ⟨v, hv, rfl⟩ := hid
    obtain ⟨s', st', rfl⟩ := greedyLoop_mem p dec features gt _ _ _ _ v hv
    have hlen : (SARDecoder.greedyStep p dec features s' st').1.length
        = dec.vocabSize + 1 := by
      simp only [SARDecoder.greedyStep]
      rw [denseLayer_length, hW, hB, min_self]
    have hne : (SARDecoder.greedyStep p dec features s' st').1 ≠ [] := by
      intro hnil
      rw [hnil] at hlen
      simp at hlen
    have := argmax_lt _ hne
    omega

/-- Claim C8, witness: the one-hot of the start id 2 over depth 2 is zero,
its embedding is zero, and every greedy prediction of the concrete decoder
is below 2. -/
theorem C8_witness :
    oneHot 2 2 = zeros 2
      ∧ SARDecoder.embed_token dec0 2 = zeros 1
      ∧ ∀ id ∈ (SARDecoder.greedy_decode idPrims dec0 2 () features0 none).1,
          id < 2 :=
  C8_theorem idPrims dec0 features0 () none 2 rfl rfl

/-! ## splitHead lemmas (PostProcessor string truncation) -/

theorem splitHead_prefix_of (m : List Char) (s : List Char) : splitHead m s <+: s := by
  induction s with
  | nil => simp [splitHead]
  | cons c cs ih =>
      simp only [splitHead]
      by_cases h : m.isPrefixOf (c :: cs)
      · rw [if_pos h]
        exact List.nil_prefix
      · rw [if_neg h]
        obtain ⟨t, ht⟩ := ih
        exact ⟨t, by rw [List.cons_append, ht]⟩

theorem splitHead_append_self (m t : List Char) (hm : m ≠ []) :
    splitHead m (m ++ t) = [] := by
  cases m with
  | nil => exact absurd rfl hm
  | cons c cs =>
      show splitHead (c :: cs) (c :: (cs ++ t)) = []
      simp only [splitHead]
      rw [if_pos]
      exact List.isPrefixOf_iff_prefix.mpr ⟨t, rfl⟩

theorem not_infix_splitHead (m : List Char) (hm : m ≠ []) (s : List Char) :
    ¬ m <:+: splitHead m s := by
  induction s with
  | nil =>
      intro h
      exact hm (List.eq_nil_of_infix_nil h)
  | cons c cs ih =>
      simp only [splitHead]
      by_cases h : m.isPrefixOf (c :: cs)
      · rw [if_pos h]
        intro hinf
        exact hm (List.eq_nil_of_infix_nil hinf)
      · rw [if_neg h]
        intro hinf
        rcases List.infix_cons_iff.mp hinf with hp | hi
        · have hps : c :: splitHead m cs <+: c :: cs := by
            obtain ⟨t, ht⟩ := splitHead_prefix_of m cs
            exact ⟨t, by rw [List.cons_append, ht]⟩
          exact h (List.isPrefixOf_iff_prefix.mpr (hp.trans hps))
        · exact ih hi

theorem splitHead_decomp (m : List Char) (s : List Char) :
    ∃ rest, s = splitHead m s ++ rest ∧ (rest = [] ∨ m <+: rest) := by
  induction s with
  | nil => exact ⟨[], rfl, Or.inl rfl⟩
  | cons c cs ih =>
      by_cases h : m.isPrefixOf (c :: cs)
      · refine ⟨c :: cs, ?_, Or.inr (List.isPrefixOf_iff_prefix.mp h)⟩
        show c :: cs = (if m.isPrefixOf (c :: cs) then [] else c :: splitHead m cs) ++ (c :: cs)
        rw [if_pos h, List.nil_append]
      · obtain ⟨rest, h1, h2⟩ := ih
        refine ⟨rest, ?_, h2⟩
        show c :: cs = (if m.isPrefixOf (c :: cs) then [] else c :: splitHead m cs) ++ rest
        rw [if_neg h, List.cons_append, ← h1]

theorem embeddingLookup_cases (vocab : List Char) (id : ℕ) :
    (∃ c, embeddingLookup vocab id = [c])
      ∨ embeddingLookup vocab id = eosMarker
      ∨ embeddingLookup vocab id = [] := by
  unfold embeddingLookup mkEmbedding
  rcases lt_trichotomy id vocab.length with h | h | h
  · left
    rw [List.getD_eq_getElem _ _ (by simp; omega)]
    refine ⟨vocab[id], ?_⟩
    rw [List.getElem_append_left (by simpa using h)]
    simp
  · right; left
    subst h
    rw [List.getD_eq_getElem _ _ (by simp)]
    rw [List.getElem_append_right (by simp)]
    simp
  · right; right
    apply List.getD_eq_default
    simp
    omega

theorem decodeOne_length_le (vocab : List Char) (ids : List ℕ) :
    (SARPostProcessor.decodeOne vocab ids).length ≤ ids.length := by
  unfold SARPostProcessor.decodeOne
  induction ids with
  | nil => simp [reduceJoin, splitHead]
  | cons id rest ih =>
      have hjoin : reduceJoin vocab (id :: rest)
          = embeddingLookup vocab id ++ reduceJoin vocab rest := by
        simp [reduceJoin]
      rcases embeddingLookup_cases vocab id with ⟨c, hc⟩ | hc | hc
      · rw [hjoin, hc]
        show (splitHead eosMarker (c :: reduceJoin vocab rest)).length ≤ rest.length + 1
        simp only [splitHead]
        by_cases h : eosMarker.isPrefixOf (c :: reduceJoin vocab rest)
        · rw [if_pos h]
          simp
        · rw [if_neg h]
          simp only [List.length_cons]
          exact Nat.succ_le_succ ih
      · rw [hjoin, hc, splitHead_append_self eosMarker _ (by decide)]
        simp
      · rw [hjoin, hc, List.nil_append]
        exact le_trans ih (by simp)

/-! ## Claim C4 — decoded-string length bound -/

/-- Claim C4, counterexample.  With the spec's `max_length` convention
(the constructor argument, as used for `TokenSequence` of length
`max_length + 1`), the claim `len(decoded_string) <= max_length` fails:
the greedy loop runs `max_length + 1` steps and nothing forces an EOS
emission, so a decoder that never argmaxes to EOS yields a decoded string
of `max_length + 1` characters.  Concretely `dec0` (`max_length = 1`)
decodes to a 2-character string. -/
theorem C4_counterexample :
    ¬ ((SARPostProcessor.decodeOne ['a']
          (SARDecoder.greedy_decode idPrims dec0 2 () features0 none).1).length
        ≤ dec0.maxLength) := by
  rw [dec0_greedy_ids]
  decide

/-- Claim C4, amended: every decoded string of the post-processor applied
to a greedy decode has length at most `max_length + 1` — the stored model
attribute `SAR.max_length`, which includes the appended EOS slot — and the
string never contains the EOS marker as a substring. -/
theorem C4_amended {σ} (p : Primitives) (dec : SARDecoder σ) (sym : ℕ) (st : σ)
    (features : Grid) (gt : Option (List ℕ)) (vocab : List Char) :
    (SARPostProcessor.decodeOne vocab
        (SARDecoder.greedy_decode p dec sym st features gt).1).length
      ≤ dec.maxLength + 1
    ∧ ¬ (eosMarker <:+: SARPostProcessor.decodeOne vocab
        (SARDecoder.greedy_decode p dec sym st features gt).1) := by
  constructor
  · have h1 := decodeOne_length_le vocab
      (SARDecoder.greedy_decode p dec sym st features gt).1
    have h2 : (SARDecoder.greedy_decode p dec sym st features gt).1.length
        = dec.maxLength + 1 := by
      simp [SARDecoder.greedy_decode, greedyLoop_length]
    omega
  · exact not_infix_splitHead eosMarker (by decide) _

/-! ## Claim C7 — truncation at the first EOS marker -/

/-- Claim C7: the post-processor maps each token id to its vocabulary
character (or the EOS marker), concatenates them per sequence, and returns
exactly the prefix before the first EOS-marker occurrence — the joined
string decomposes as the decoded string followed by a remainder that, if
nonempty, starts with the EOS marker, and the decoded string itself
contains no EOS-marker occurrence. -/
theorem C7_theorem (vocab : List Char) (ids : List ℕ) :
    reduceJoin vocab ids = (ids.map (embeddingLookup vocab)).flatten
      ∧ (∃ rest, reduceJoin vocab ids = SARPostProcessor.decodeOne vocab ids ++ rest
          ∧ (rest = [] ∨ eosMarker <+: rest))
      ∧ ¬ (eosMarker <:+: SARPostProcessor.decodeOne vocab ids) :=
  ⟨rfl, splitHead_decomp eosMarker (reduceJoin vocab ids),
    not_infix_splitHead eosMarker (by decide) _⟩

/-! ## Claim C10 — attention on an all-zero feature map -/

/-- Claim C10: for a single sample whose feature map is entirely zero, all
attention scores coincide (the 3x3 feature projection reduces to its bias
at every location and the broadcast hidden projection is
location-independent), so the softmax attention distribution is uniform
over the `H·W` locations, and the returned glimpse equals the mean feature
vector — here the zero vector. -/
theorem C10_theorem (p : Primitives) (m : AttentionModule) (H W D : ℕ)
    (hidden : Vec) (hexp : ∀ x, 0 < p.exp x) (hH : 0 < H) (hW : 0 < W)
    (hK : ∀ di, di < 3 → ∀ dj, dj < 3 →
      ((m.featK.getD di []).getD dj []).length = m.featB.length) :
    AttentionModule.attn p m (List.replicate H (List.replicate W (zeros D))) hidden
        = List.replicate (H * W) (1 / ((H * W : ℕ) : ℚ))
      ∧ AttentionModule.call p m (List.replicate H (List.replicate W (zeros D))) hidden
        = zeros D :=
  ⟨attn_zeroGrid p m H W D hidden hH hW hexp hK,
    call_zeroGrid p m H W D hidden hH hW⟩

/-- Claim C10, witness: the 1x1 all-zero feature map with the concrete
all-zero attention module and a positive `exp` interpretation. -/
theorem C10_witness :
    AttentionModule.attn onePrims attn0
        (List.replicate 1 (List.replicate 1 (zeros 1))) (zeros 1)
        = List.replicate (1 * 1) (1 / ((1 * 1 : ℕ) : ℚ))
      ∧ AttentionModule.call onePrims attn0
        (List.replicate 1 (List.replicate 1 (zeros 1))) (zeros 1)
        = zeros 1 :=
  C10_theorem onePrims attn0 1 1 1 (zeros 1) (fun _ => one_pos) one_pos one_pos
    (by decide)

/-! ## Loss-masking lemmas -/

theorem getD_map_range {α} (L t : ℕ) (g : ℕ → α) (d : α) (h : t < L) :
    ((List.range L).map g).getD t d = g t := by
  rw [List.getD_eq_getElem _ _ (by simpa using h)]
  simp

theorem getD_map_lt {α β} (f : α → β) (l : List α) (n : ℕ) (d : β) (d' : α)
    (h : n < l.length) :
    (l.map f).getD n d = f (l.getD n d') := by
  rw [List.getD_eq_getElem _ _ (by simpa using h), List.getD_eq_getElem _ _ h,
    List.getElem_map]

theorem sum_range_ite (f : ℕ → ℚ) (s L : ℕ) (h : s ≤ L) :
    ((List.range L).map fun t => if t < s then f t else 0).sum
      = ((List.range s).map f).sum := by
  induction L with
  | zero =>
      have hz : s = 0 := Nat.le_zero.mp h
      subst hz; rfl
  | succ L ih =>
      rcases Nat.lt_or_ge s (L + 1) with hs | hs
      · have hsL : s ≤ L := Nat.lt_succ_iff.mp hs
        rw [List.range_succ, List.map_append, List.sum_append, ih hsL]
        simp [Nat.not_lt.mpr hsL]
      · have hse : s = L + 1 := le_antisymm h hs
        subst hse
        simp only [List.range_succ, List.map_append, List.sum_append]
        congr 1
        · apply congrArg
          apply List.map_congr_left
          intro t ht
          rw [if_pos (lt_of_lt_of_le (List.mem_range.mp ht) (Nat.le_succ L))]
        · simp

theorem maskedRow_range_sum (g : ℕ → ℚ) (s L : ℕ) (hs : s ≤ L) :
    (maskedRow ((List.range L).map g) s L).sum = ((List.range s).map g).sum := by
  unfold maskedRow
  have hcongr : ∀ t ∈ List.range L,
      (if t < s then ((List.range L).map g).getD t 0 else 0)
        = (if t < s then g t else 0) := by
    intro t ht
    by_cases hts : t < s
    · rw [if_pos hts, if_pos hts, getD_map_range L t g 0 (List.mem_range.mp ht)]
    · rw [if_neg hts, if_neg hts]
  rw [List.map_congr_left hcongr]
  exact sum_range_ite g s L hs

theorem maskedRow_getD_zero (row : List ℚ) (s L t : ℕ) (h : s ≤ t) :
    (maskedRow row s L).getD t 0 = 0 := by
  unfold maskedRow
  by_cases hL : t < L
  · rw [getD_map_range L t _ 0 hL, if_neg (by omega)]
  · apply List.getD_eq_default
    simp only [List.length_map, List.length_range]
    omega

theorem computeLossMask_getD (cce : List (List ℚ)) (seqLen1 : List ℕ) (L n : ℕ)
    (h1 : n < cce.length) (h2 : n < seqLen1.length) :
    (SAR.computeLossMask cce seqLen1 L).getD n []
      = [(maskedRow (cce.getD n []) (seqLen1.getD n 0) L).sum
          / ((seqLen1.getD n 0 : ℕ) : ℚ)] := by
  unfold SAR.computeLossMask
  rw [List.getD_eq_getElem _ _ (by simp [List.length_zip]; omega)]
  rw [List.getElem_map, List.getElem_zip]
  rw [List.getD_eq_getElem _ _ h1, List.getD_eq_getElem _ _ h2]

/-! ## Claim C2 — masked per-sample loss -/

/-- Claim C2: for every batch, `SAR.compute_loss` returns one singleton row
per sample (shape `[N, 1]`, never reduced across the batch); entry `n` is
the sum of the per-timestep cross-entropy terms over the first
`seq_len[n] + 1` timesteps divided by `seq_len[n] + 1`; every timestep at
index `≥ seq_len[n] + 1` contributes exactly zero to the masked row; and
for a sample with `seq_len[n] = 0` the loss equals the single EOS-timestep
term alone. -/
theorem C2_theorem (p : Primitives) (mo : List (List Vec)) (gt : List (List ℕ))
    (seqLen : List ℕ) (confM : Option Mat) (hN : seqLen.length = mo.length) :
    (SAR.compute_loss p mo gt seqLen confM).length = mo.length
      ∧ (∀ r ∈ SAR.compute_loss p mo gt seqLen confM, r.length = 1)
      ∧ ∀ n, n < mo.length →
          seqLen.getD n 0 + 1 ≤ (mo.headD []).length →
          ((SAR.compute_loss p mo gt seqLen confM).getD n []
              = [((List.range (seqLen.getD n 0 + 1)).map fun t =>
                  ceTerm p ((mo.headD []).headD []).length confM
                    ((gt.getD n []).getD t 0) ((mo.getD n []).getD t [])).sum
                  / ((seqLen.getD n 0 + 1 : ℕ) : ℚ)]
            ∧ (∀ t, seqLen.getD n 0 + 1 ≤ t →
                (maskedRow ((List.range (mo.headD []).length).map fun t' =>
                    ceTerm p ((mo.headD []).headD []).length confM
                      ((gt.getD n []).getD t' 0) ((mo.getD n []).getD t' []))
                  (seqLen.getD n 0 + 1) (mo.headD []).length).getD t 0 = 0)
            ∧ (seqLen.getD n 0 = 0 →
                (SAR.compute_loss p mo gt seqLen confM).getD n []
                  = [ceTerm p ((mo.headD []).headD []).length confM
                      ((gt.getD n []).getD 0 0) ((mo.getD n []).getD 0 [])])) := by
  unfold SAR.compute_loss
  set L := (mo.headD []).length with hL
  set depth := ((mo.headD []).headD []).length with hdepth
  set g : ℕ → ℕ → ℚ := fun n t =>
    ceTerm p depth confM ((gt.getD n []).getD t 0) ((mo.getD n []).getD t []) with hg
  set cce := (List.range mo.length).map (fun n => (List.range L).map (g n)) with hcce
  have hcceLen : cce.length = mo.length := by simp [hcce]
  have hsl1Len : (seqLen.map (· + 1)).length = mo.length := by simp [hN]
  refine ⟨?_, ?_, ?_⟩
  · simp [SAR.computeLossMask, List.length_zip, hcceLen, hsl1Len]
  · intro r hr
    simp only [SAR.computeLossMask, List.mem_map] at hr
    obtain ⟨pr, _, rfl⟩ := hr
    rfl
  · intro n hn hbound
    have hmain : (SAR.computeLossMask cce (seqLen.map (· + 1)) L).getD n []
        = [((List.range (seqLen.getD n 0 + 1)).map (g n)).sum
            / ((seqLen.getD n 0 + 1 : ℕ) : ℚ)] := by
      rw [computeLossMask_getD cce (seqLen.map (· + 1)) L n
        (by rw [hcceLen]; exact hn) (by rw [hsl1Len]; exact hn)]
      rw [getD_map_lt (· + 1) seqLen n 0 0 (by rw [hN]; exact hn)]
      rw [hcce, getD_map_range mo.length n _ [] hn]
      rw [maskedRow_range_sum (g n) (seqLen.getD n 0 + 1) L hbound]
    refine ⟨hmain, ?_, ?_⟩
    · intro t ht
      exact maskedRow_getD_zero _ _ _ _ ht
    · intro h0
      rw [hmain, h0]
      have hsum : ((List.range (0 + 1)).map (g n)).sum = g n 0 := by
        rw [show List.range (0 + 1) = [0] from rfl]
        simp
      rw [hsum, show ((0 + 1 : ℕ) : ℚ) = 1 by norm_num, div_one]

/-- Claim C2, witness: a concrete batch with one sample, two timesteps and
`seq_len = 0` — the loss entry is the masked average over the single EOS
timestep. -/
theorem C2_witness :
    (SAR.compute_loss idPrims [[[0, 1], [2, 3]]] [[0, 1]] [0] none).getD 0 []
      = [((List.range (([0] : List ℕ).getD 0 0 + 1)).map fun t =>
          ceTerm idPrims
            ((([[[0, 1], [2, 3]]] : List (List Vec)).headD []).headD []).length none
            ((([[0, 1]] : List (List ℕ)).getD 0 []).getD t 0)
            ((([[[0, 1], [2, 3]]] : List (List Vec)).getD 0 []).getD t [])).sum
          / ((([0] : List ℕ).getD 0 0 + 1 : ℕ) : ℚ)] :=
  ((C2_theorem idPrims [[[0, 1], [2, 3]]] [[0, 1]] [0] none rfl).2.2 0
    (by decide) (by decide)).1

/-! ## Beam-search invariants -/

/-- The running invariant of one beam hypothesis after at most `bound - 1`
expansion steps: the token sequence (still carrying the leading start id)
is nonempty and at most `bound` long; a live hypothesis has emitted no EOS
at all, and a finished one has EOS only as its final emitted token. -/
def hypInv {σ} (eos bound : ℕ) (h : BeamHyp σ) : Prop :=
  h.toks ≠ [] ∧ h.toks.length ≤ bound
    ∧ (h.finished = false → eos ∉ h.toks.drop 1)
    ∧ (h.finished = true → eos ∉ (h.toks.drop 1).dropLast)

theorem hypInv_mono {σ} (eos b b' : ℕ) (h : BeamHyp σ) (hle : b ≤ b')
    (hi : hypInv eos b h) : hypInv eos b' h :=
  ⟨hi.1, le_trans hi.2.1 hle, hi.2.2.1, hi.2.2.2⟩

theorem expandHyp_inv {σ} (p : Primitives) (dec : SARDecoder σ) (features : Grid)
    (V eos b : ℕ) (h : BeamHyp σ) (hlive : h.finished = false)
    (hi : hypInv eos b h) :
    ∀ h' ∈ expandHyp p dec features V eos h, hypInv eos (b + 1) h' := by
  intro h' hh'
  simp only [expandHyp, List.mem_map, List.mem_range] at hh'
  obtain ⟨v, hv, rfl⟩ := hh'
  have hne : h.toks ≠ [] := hi.1
  have hpos : 1 ≤ h.toks.length := List.length_pos.mpr hne
  have hdrop : (h.toks ++ [v]).drop 1 = h.toks.drop 1 ++ [v] :=
    List.drop_append_of_le_length hpos
  refine ⟨by simp, ?_, ?_, ?_⟩
  · simp only [List.length_append, List.length_cons, List.length_nil]
    have := hi.2.1
    omega
  · intro hfin
    simp only at hfin
    have hvne : v ≠ eos := by
      intro he
      rw [he] at hfin
      simp at hfin
    rw [hdrop]
    intro hmem
    rcases List.mem_append.mp hmem with hmem | hmem
    · exact hi.2.2.1 hlive hmem
    · have heq : eos = v := by simpa using hmem
      exact hvne heq.symm
  · intro hfin
    simp only at hfin
    have hveq : v = eos := of_decide_eq_true hfin
    rw [hdrop, hveq, List.dropLast_concat]
    exact hi.2.2.1 hlive

theorem mem_beamStep_sources {σ} (p : Primitives) (dec : SARDecoder σ)
    (features : Grid) (V eos k : ℕ) (hyps : List (BeamHyp σ)) (h' : BeamHyp σ)
    (hh' : h' ∈ beamStep p dec features V eos k hyps) :
    ∃ h ∈ hyps, (h.finished = true ∧ h' = h)
      ∨ (h.finished = false ∧ h' ∈ expandHyp p dec features V eos h) := by
  unfold beamStep at hh'
  have h1 : h' ∈ List.insertionSort hypGE
      (hyps.flatMap fun h =>
        if h.finished then [h] else expandHyp p dec features V eos h) :=
    List.mem_of_mem_take hh'
  have h2 : h' ∈ hyps.flatMap fun h =>
      if h.finished then [h] else expandHyp p dec features V eos h :=
    (List.perm_insertionSort hypGE _).mem_iff.mp h1
  simp only [List.mem_flatMap] at h2
  obtain ⟨h, hh, hmem⟩ := h2
  refine ⟨h, hh, ?_⟩
  by_cases hf : h.finished
  · rw [if_pos hf] at hmem
    exact Or.inl ⟨hf, by simpa using hmem⟩
  · rw [if_neg hf] at hmem
    exact Or.inr ⟨Bool.not_eq_true _ ▸ Bool.of_not_eq_true hf, hmem⟩

theorem beamStep_inv {σ} (p : Primitives) (dec : SARDecoder σ) (features : Grid)
    (V eos k b : ℕ) (hyps : List (BeamHyp σ))
    (hi : ∀ h ∈ hyps, hypInv eos b h) :
    ∀ h' ∈ beamStep p dec features V eos k hyps, hypInv eos (b + 1) h' := by
  intro h' hh'
  obtain ⟨h, hh, hcase⟩ :=
    mem_beamStep_sources p dec features V eos k hyps h' hh'
  rcases hcase with ⟨_, rfl⟩ | ⟨hlive, hexp⟩
  · exact hypInv_mono eos b (b + 1) h' (Nat.le_succ b) (hi h' hh)
  · exact expandHyp_inv p dec features V eos b h hlive (hi h hh) h' hexp

theorem flatMap_length_ge {α β} (l : List α) (f : α → List β)
    (h : ∀ a ∈ l, f a ≠ []) : l.length ≤ (l.flatMap f).length := by
  induction l with
  | nil => simp
  | cons a as ih =>
      simp only [List.flatMap_cons, List.length_append, List.length_cons]
      have h1 : 1 ≤ (f a).length := List.length_pos.mpr (h a (by simp))
      have h2 := ih fun a' ha' => h a' (by simp [ha'])
      omega

theorem beamStep_length {σ} (p : Primitives) (dec : SARDecoder σ) (features : Grid)
    (V eos k : ℕ) (hyps : List (BeamHyp σ)) (hV : 0 < V) (hlen : hyps.length = k) :
    (beamStep p dec features V eos k hyps).length = k := by
  unfold beamStep
  have hcands : k ≤ (hyps.flatMap fun h =>
      if h.finished then [h] else expandHyp p dec features V eos h).length := by
    rw [← hlen]
    apply flatMap_length_ge
    intro h _
    by_cases hf : h.finished
    · rw [if_pos hf]; simp
    · rw [if_neg hf]
      intro hnil
      have : (expandHyp p dec features V eos h).length = 0 := by rw [hnil]; rfl
      simp only [expandHyp, List.length_map, List.length_range] at this
      omega
  rw [List.length_take, (List.perm_insertionSort hypGE _).length_eq]
  omega

theorem beamStep_sorted {σ} (p : Primitives) (dec : SARDecoder σ) (features : Grid)
    (V eos k : ℕ) (hyps : List (BeamHyp σ)) :
    List.Sorted hypGE (beamStep p dec features V eos k hyps) := by
  unfold beamStep
  exact (List.sorted_insertionSort hypGE _).sublist (List.take_sublist _ _)

theorem beamSearchLoop_inv {σ} (p : Primitives) (dec : SARDecoder σ)
    (features : Grid) (V eos k : ℕ) :
    ∀ fuel (hyps : List (BeamHyp σ)) (b : ℕ), (∀ h ∈ hyps, hypInv eos b h) →
      ∀ h' ∈ beamSearchLoop p dec features V eos k fuel hyps,
        hypInv eos (b + fuel) h' := by
  intro fuel
  induction fuel with
  | zero => intro hyps b hi h' hh'; exact hi h' hh'
  | succ f ih =>
      intro hyps b hi h' hh'
      simp only [beamSearchLoop] at hh'
      by_cases hall : hyps.all (·.finished)
      · rw [if_pos hall] at hh'
        exact hypInv_mono eos b (b + (f + 1)) h' (by omega) (hi h' hh')
      · rw [if_neg hall] at hh'
        have := ih (beamStep p dec features V eos k hyps) (b + 1)
          (beamStep_inv p dec features V eos k b hyps hi) h' hh'
        exact hypInv_mono eos (b + 1 + f) (b + (f + 1)) h' (by omega) this

theorem beamSearchLoop_length {σ} (p : Primitives) (dec : SARDecoder σ)
    (features : Grid) (V eos k : ℕ) (hV : 0 < V) :
    ∀ fuel (hyps : List (BeamHyp σ)), hyps.length = k →
      (beamSearchLoop p dec features V eos k fuel hyps).length = k := by
  intro fuel
  induction fuel with
  | zero => intro hyps hlen; exact hlen
  | succ f ih =>
      intro hyps hlen
      simp only [beamSearchLoop]
      by_cases hall : hyps.all (·.finished)
      · rw [if_pos hall]; exact hlen
      · rw [if_neg hall]
        exact ih _ (beamStep_length p dec features V eos k hyps hV hlen)

theorem beamSearchLoop_sorted {σ} (p : Primitives) (dec : SARDecoder σ)
    (features : Grid) (V eos k : ℕ) :
    ∀ fuel (hyps : List (BeamHyp σ)), List.Sorted hypGE hyps →
      List.Sorted hypGE (beamSearchLoop p dec features V eos k fuel hyps) := by
  intro fuel
  induction fuel with
  | zero => intro hyps hs; exact hs
  | succ f ih =>
      intro hyps hs
      simp only [beamSearchLoop]
      by_cases hall : hyps.all (·.finished)
      · rw [if_pos hall]; exact hs
      · rw [if_neg hall]
        exact ih _ (beamStep_sorted p dec features V eos k hyps)

theorem sorted_replicate_hypGE {σ} (n : ℕ) (h0 : BeamHyp σ) :
    List.Sorted hypGE (List.replicate n h0) := by
  induction n with
  | zero => exact List.sorted_nil
  | succ m ih =>
      rw [List.replicate_succ]
      refine List.Pairwise.cons ?_ ih
      intro b hb
      rw [List.eq_of_mem_replicate hb]
      exact le_refl _

/-! ## Claim C6 — beam-search decode contract -/

/-- Claim C6 (settled against the spec-modelled beam search, since
`beam_search.sequence_beam_search` is an external dependency): for every
beam-decode call with `beam_width = k ≥ 1`, the search runs at most
`max_length + 1` expansion steps (the fuel passed as `max_decode_length`)
with no length penalty (`alpha = 0` is built into the scoring), terminates
a hypothesis upon emitting EOS (id `vocab_size`) and never extends it
afterwards, and the results — with the leading start token stripped — are
`k` token sequences of length at most `max_length + 1` in which EOS occurs
at most as the final token, together with `k` cumulative log-probabilities
ordered best-first. -/
theorem C6_theorem {σ} (p : Primitives) (dec : SARDecoder σ) (symbol : ℕ)
    (states : σ) (features : Grid) (k : ℤ) (hk : 1 ≤ k) :
    (k.toNat : ℤ) = k
      ∧ (SARDecoder.beam_decode p dec symbol states features k).1.length = k.toNat
      ∧ (SARDecoder.beam_decode p dec symbol states features k).2.length = k.toNat
      ∧ List.Sorted (fun a b : ℚ => b ≤ a)
          (SARDecoder.beam_decode p dec symbol states features k).2
      ∧ (∀ s ∈ (SARDecoder.beam_decode p dec symbol states features k).1,
          s.length ≤ dec.maxLength + 1)
      ∧ (∀ s ∈ (SARDecoder.beam_decode p dec symbol states features k).1,
          dec.vocabSize ∉ s.dropLast) := by
  have hV : 0 < dec.vocabSize + 1 := Nat.succ_pos _
  set h0 : BeamHyp σ :=
    { toks := [symbol], score := 0, finished := false, state := states } with hh0
  set final := beamSearchLoop p dec features (dec.vocabSize + 1) dec.vocabSize
    k.toNat (dec.maxLength + 1) (List.replicate k.toNat h0) with hfinal
  have hlen : final.length = k.toNat :=
    beamSearchLoop_length p dec features (dec.vocabSize + 1) dec.vocabSize
      k.toNat hV (dec.maxLength + 1) _ (List.length_replicate _ _)
  have hinit : ∀ h ∈ List.replicate k.toNat h0, hypInv dec.vocabSize 1 h := by
    intro h hh
    rw [List.eq_of_mem_replicate hh]
    refine ⟨by simp [hh0], by simp [hh0], ?_, ?_⟩
    · intro _
      simp [hh0]
    · intro hfin
      rw [hh0] at hfin
      simp at hfin
  have hfin_inv : ∀ h ∈ final, hypInv dec.vocabSize (1 + (dec.maxLength + 1)) h :=
    beamSearchLoop_inv p dec features (dec.vocabSize + 1) dec.vocabSize k.toNat
      (dec.maxLength + 1) _ 1 hinit
  have hsorted : List.Sorted hypGE final :=
    beamSearchLoop_sorted p dec features (dec.vocabSize + 1) dec.vocabSize
      k.toNat (dec.maxLength + 1) _ (sorted_replicate_hypGE k.toNat h0)
  have hfst : (SARDecoder.beam_decode p dec symbol states features k).1
      = (final.map (·.toks)).map fun s => s.drop 1 := rfl
  have hsnd : (SARDecoder.beam_decode p dec symbol states features k).2
      = final.map (·.score) := rfl
  refine ⟨Int.toNat_of_nonneg (by omega), ?_, ?_, ?_, ?_, ?_⟩
  · rw [hfst]
    simp [hlen]
  · rw [hsnd]
    simp [hlen]
  · rw [hsnd]
    exact List.Pairwise.map _ (fun a b hab => hab) hsorted
  · intro s hs
    rw [hfst] at hs
    simp only [List.map_map, List.mem_map, Function.comp] at hs
    obtain ⟨h, hh, rfl⟩ := hs
    have := (hfin_inv h hh).2.1
    simp only [List.length_drop]
    omega
  · intro s hs
    rw [hfst] at hs
    simp only [List.map_map, List.mem_map, Function.comp] at hs
    obtain ⟨h, hh, rfl⟩ := hs
    have hi := hfin_inv h hh
    cases hfc : h.finished with
    | true => exact hi.2.2.2 hfc
    | false =>
        intro hmem
        exact hi.2.2.1 hfc ((List.dropLast_sublist _).subset hmem)

/-- Claim C6, witness: the concrete tiny decoder with beam width 2. -/
theorem C6_witness :
    (((2 : ℤ).toNat : ℤ) = 2)
      ∧ (SARDecoder.beam_decode idPrims dec0 2 () features0 2).1.length = (2 : ℤ).toNat
      ∧ (SARDecoder.beam_decode idPrims dec0 2 () features0 2).2.length = (2 : ℤ).toNat
      ∧ List.Sorted (fun a b : ℚ => b ≤ a)
          (SARDecoder.beam_decode idPrims dec0 2 () features0 2).2
      ∧ (∀ s ∈ (SARDecoder.beam_decode idPrims dec0 2 () features0 2).1,
          s.length ≤ dec0.maxLength + 1)
      ∧ (∀ s ∈ (SARDecoder.beam_decode idPrims dec0 2 () features0 2).1,
          dec0.vocabSize ∉ s.dropLast) :=
  C6_theorem idPrims dec0 2 () features0 2 (by decide)

end SARTF
